import Mathlib

/-!
Shallow embedding of the extraction and normalization pipeline of the
AI-Culture dataset creators:

* `compact_html` — the tag-aware whitespace compactor
  (`ai-culture-csv-dataset-creator.py` lines 54-95, identical copies in the
  json and dolma creators): a character scan with the two booleans
  `in_tag` / `protect`, followed by the four cleanup regex substitutions
  and a final strip.
* the `extract_content` post-processing chain
  (`ai-culture-json-dataset-creator.py` lines 123-134, dolma lines 186-200):
  entity decoding, NFKC, the four regex passes (a)-(d), and for the dolma
  variant a final strip of newlines and spaces.
* `clean_control_chars` (csv/json variant with a final strip, dolma variant
  without).

Each Python `re.sub(pattern, repl, s)` call is embedded as a structural
left-to-right scanner over `List Char` with the exact leftmost,
non-overlapping, greedy semantics of `re.sub`; the embedding of each pass is
documented at its definition.

Components that are not part of the repository's own sources (the
`html2text`/`BeautifulSoup` flattener, the bidi repair pass, and the
standard-library `html.unescape` / `unicodedata.normalize` calls) are
modelled from the spec and marked as such in their doc comments.
-/

/-- Horizontal whitespace as used by the regex class in pass (a)
of the post-processing: a space or a tab. -/
def isHWS (c : Char) : Bool := c == ' ' || c == '\t'

/-- The character set matched by Python's regex class in a unicode
pattern (the characters for which Python's text whitespace test is true):
ASCII space, tab, LF, CR, VT, FF, the file/group/record/unit separators,
NEL, NBSP, Ogham space mark, the U+2000 block spaces, line and paragraph
separators, narrow no-break space, medium mathematical space, and the
ideographic space. -/
def isPySpace (c : Char) : Bool :=
  c.toNat == 0x20 || c.toNat == 0x9 || c.toNat == 0xA || c.toNat == 0xD ||
  c.toNat == 0xB || c.toNat == 0xC ||
  (0x1C ≤ c.toNat && c.toNat ≤ 0x1F) ||
  c.toNat == 0x85 || c.toNat == 0xA0 || c.toNat == 0x1680 ||
  (0x2000 ≤ c.toNat && c.toNat ≤ 0x200A) ||
  c.toNat == 0x2028 || c.toNat == 0x2029 || c.toNat == 0x202F ||
  c.toNat == 0x205F || c.toNat == 0x3000

/-- The `CJK_RANGE` character class of `extract_content`: CJK Unified
Ideographs, Hiragana and Katakana, Hangul syllables, Bopomofo, and the
halfwidth/fullwidth forms block. -/
def isCJK (c : Char) : Bool :=
  (0x4E00 ≤ c.toNat && c.toNat ≤ 0x9FFF) ||
  (0x3040 ≤ c.toNat && c.toNat ≤ 0x30FF) ||
  (0xAC00 ≤ c.toNat && c.toNat ≤ 0xD7AF) ||
  (0x3100 ≤ c.toNat && c.toNat ≤ 0x312F) ||
  (0xFF00 ≤ c.toNat && c.toNat ≤ 0xFFEF)

/-- Python's plain string strip applied on both ends (whitespace set of
the text strip, which agrees with `isPySpace` on every code point). -/
def pyStrip (l : List Char) : List Char :=
  ((l.dropWhile isPySpace).reverse.dropWhile isPySpace).reverse

/-- The dolma creator's final strip of the extracted body: only newline
and space characters are stripped from both ends. -/
def stripNLSpace (l : List Char) : List Char :=
  ((l.dropWhile fun c => c == '\n' || c == ' ').reverse.dropWhile
    (fun c => c == '\n' || c == ' ')).reverse

/-- Pass (a) of the post-processing, the substitution replacing every run
of two or more space/tab characters by a single space.  State: `none` when
not inside a horizontal-whitespace run, `some (p, false)` when exactly the
single whitespace character `p` is pending, `some (p, true)` when a pending
run of length at least two has been seen (it will be emitted as one space). -/
def collapseHWSAux : Option (Char × Bool) → List Char → List Char
  | none, [] => []
  | some (p, more), [] => [if more then ' ' else p]
  | none, c :: cs =>
      if isHWS c then collapseHWSAux (some (c, false)) cs
      else c :: collapseHWSAux none cs
  | some (p, more), c :: cs =>
      if isHWS c then collapseHWSAux (some (p, true)) cs
      else (if more then ' ' else p) :: c :: collapseHWSAux none cs

/-- Pass (a): collapse runs of two or more spaces/tabs into one space. -/
def collapseHWS (l : List Char) : List Char := collapseHWSAux none l

/-- Pass (b) of the post-processing, the substitution deleting space runs
around each newline (the pattern is spaces, a newline, spaces, replaced by
the newline).  `skip` is true while consuming the spaces that directly
follow an emitted newline; `k` counts pending spaces not yet known to
touch a newline. -/
def trimNLAux : Bool → Nat → List Char → List Char
  | _, k, [] => List.replicate k ' '
  | skip, k, c :: cs =>
      if c = ' ' then
        (if skip then trimNLAux true 0 cs else trimNLAux false (k + 1) cs)
      else if c = '\n' then '\n' :: trimNLAux true 0 cs
      else List.replicate k ' ' ++ c :: trimNLAux false 0 cs

/-- Pass (b): remove spaces adjacent to newlines. -/
def trimNL (l : List Char) : List Char := trimNLAux false 0 l

/-- Pass (c) of the post-processing, the substitution replacing every run
of three or more newlines by exactly two.  `k` counts the pending newline
run. -/
def collapseNLAux : Nat → List Char → List Char
  | k, [] => List.replicate (if 3 ≤ k then 2 else k) '\n'
  | k, c :: cs =>
      if c = '\n' then collapseNLAux (k + 1) cs
      else List.replicate (if 3 ≤ k then 2 else k) '\n' ++ c :: collapseNLAux 0 cs

/-- Pass (c): collapse runs of three or more newlines into two. -/
def collapseNL (l : List Char) : List Char := collapseNLAux 0 l

/-- Pass (d) of the post-processing, the substitution on the pattern of a
CJK character, one or more whitespace characters, and a CJK character,
replaced by the two CJK characters.  `re.sub` scans left to right without
overlap: after a match the right-hand CJK character is consumed and cannot
anchor the next match.  State: `some (c, ws)` holds a pending CJK anchor
`c` and the (reversed) whitespace seen after it. -/
def cjkAux : Option (Char × List Char) → List Char → List Char
  | none, [] => []
  | some (c, ws), [] => c :: ws.reverse
  | none, x :: cs =>
      if isCJK x then cjkAux (some (x, [])) cs
      else x :: cjkAux none cs
  | some (c, ws), x :: cs =>
      if isPySpace x then cjkAux (some (c, x :: ws)) cs
      else if isCJK x then
        (if ws.isEmpty then c :: cjkAux (some (x, [])) cs
         else c :: x :: cjkAux none cs)
      else c :: ws.reverse ++ x :: cjkAux none cs

/-- Pass (d): remove whitespace between two CJK characters (one
left-to-right non-overlapping pass). -/
def cjkDespace (l : List Char) : List Char := cjkAux none l

/-- The three whitespace passes (a)-(c) of the post-processing chain. -/
def wsPasses (l : List Char) : List Char := collapseNL (trimNL (collapseHWS l))

/-- The full post-processing chain (a)-(d) of `extract_content`, applied
after entity decoding and NFKC. -/
def normalizePost (l : List Char) : List Char := cjkDespace (wsPasses l)

/-- Modelled from the spec: entity decoding (`html.unescape`, standard
library code not under `src/`).  Faithful to the library's fast path — a
text without an ampersand is returned unchanged — with a partial table of
named and numeric character references for texts that do contain one. -/
def decodeEntities : List Char → List Char
  | '&' :: 'a' :: 'm' :: 'p' :: ';' :: cs => '&' :: decodeEntities cs
  | '&' :: 'l' :: 't' :: ';' :: cs => '<' :: decodeEntities cs
  | '&' :: 'g' :: 't' :: ';' :: cs => '>' :: decodeEntities cs
  | '&' :: 'q' :: 'u' :: 'o' :: 't' :: ';' :: cs => '"' :: decodeEntities cs
  | '&' :: '#' :: '3' :: '9' :: ';' :: cs => '\'' :: decodeEntities cs
  | c :: cs => c :: decodeEntities cs
  | [] => []

/-- Modelled from the spec: `html.unescape` returns its argument unchanged
when it contains no ampersand, and otherwise decodes character references
(here through the partial table of `decodeEntities`). -/
def unescape (l : List Char) : List Char :=
  if l.contains '&' then decodeEntities l else l

/-- Modelled from the spec: Unicode canonical composition normalization
(`unicodedata.normalize` with NFKC, standard library code not under
`src/`), modelled as the identity map.  Every concrete input appearing in
the theorems below is NFKC-invariant, and the universally quantified
theorems below quantify over the post-NFKC text, so none of them depends
on the value of this model on non-NFKC-invariant inputs. -/
def nfkc (l : List Char) : List Char := l

/-- The normalizer of the json/csv `extract_content` (steps 3a-3d of the
post-processing, after entity decoding and NFKC; no final strip). -/
def normalizeText (s : String) : String :=
  String.mk (normalizePost (nfkc (unescape s.toList)))

/-- The normalizer of the dolma `extract_content`: the same chain followed
by the final strip of newlines and spaces. -/
def normalizeTextDolma (s : String) : String :=
  String.mk (stripNLSpace (normalizePost (nfkc (unescape s.toList))))

/-- The characters deleted by `clean_control_chars`: code points 0x00-0x1F
except tab, line feed and carriage return. -/
def isBadControl (c : Char) : Bool :=
  c.toNat < 0x20 && !(c == '\t' || c == '\n' || c == '\r')

/-- The BOM stripping and control-character deletion shared by every
`clean_control_chars` variant: strip leading byte-order marks, then delete
every 0x00-0x1F code point except tab, LF, CR. -/
def cleanControlCore (l : List Char) : List Char :=
  if l.isEmpty then l
  else ((l.dropWhile fun c => c == '\uFEFF').filter fun c => !isBadControl c)

/-- `clean_control_chars` of the csv and json creators: BOM strip, control
deletion, and a final whitespace strip of both ends. -/
def clean_control_chars (l : List Char) : List Char :=
  if l.isEmpty then l else pyStrip (cleanControlCore l)

/-- `clean_control_chars` of the dolma creator: BOM strip and control
deletion only, with no final strip. -/
def clean_control_chars_dolma (l : List Char) : List Char := cleanControlCore l

/-- The character scan of `compact_html`: `in_tag` is set on every opening
angle bracket and cleared on every closing one; `protect` is set when the
lowercased ten-character window at an opening bracket starts the opening
script tag and cleared when it starts the closing script tag.  Inside a
tag or a protected block every character is copied; outside, newline,
carriage return and tab become a space. -/
def compactScan (inTag protect : Bool) : List Char → List Char
  | [] => []
  | c :: cs =>
      if c = '<' then
        c :: compactScan true
          (if List.isPrefixOf "<script".toList
              (List.map Char.toLower (List.take 10 (c :: cs))) then true
           else if List.isPrefixOf "</script".toList
              (List.map Char.toLower (List.take 10 (c :: cs))) then false
           else protect) cs
      else if c = '>' then c :: compactScan false protect cs
      else
        (if inTag || protect then c
         else if c = '\n' || c = '\r' || c = '\t' then ' ' else c) ::
          compactScan inTag protect cs

/-- Cleanup pass 1 of `compact_html`, the substitution of a closing
bracket, whitespace, an opening bracket by the two brackets.  State:
`some ws` when a closing bracket and the (reversed) whitespace run `ws`
after it are pending. -/
def gapTTAux : Option (List Char) → List Char → List Char
  | none, [] => []
  | some ws, [] => '>' :: ws.reverse
  | none, x :: cs =>
      if x = '>' then gapTTAux (some []) cs else x :: gapTTAux none cs
  | some ws, x :: cs =>
      if isPySpace x then gapTTAux (some (x :: ws)) cs
      else if x = '<' && !ws.isEmpty then '>' :: '<' :: gapTTAux none cs
      else if x = '>' then '>' :: ws.reverse ++ gapTTAux (some []) cs
      else '>' :: ws.reverse ++ x :: gapTTAux none cs

/-- Cleanup pass 2 of `compact_html`, the substitution deleting whitespace
directly before an opening bracket.  The accumulator holds the pending
(reversed) whitespace run. -/
def gapBTAux : List Char → List Char → List Char
  | ws, [] => ws.reverse
  | ws, x :: cs =>
      if isPySpace x then gapBTAux (x :: ws) cs
      else if x = '<' && !ws.isEmpty then '<' :: gapBTAux [] cs
      else ws.reverse ++ x :: gapBTAux [] cs

/-- Cleanup pass 3 of `compact_html`, the substitution deleting whitespace
directly after a closing bracket.  `after` is true while consuming the
whitespace that follows a closing bracket. -/
def gapATAux (after : Bool) : List Char → List Char
  | [] => []
  | x :: cs =>
      if after && isPySpace x then gapATAux true cs
      else if x = '>' then '>' :: gapATAux true cs
      else x :: gapATAux false cs

/-- Cleanup pass 4 of `compact_html`, the substitution collapsing runs of
two or more spaces into one.  `prev` is true when the previously emitted
character was a space of the current run. -/
def collapseSpAux (prev : Bool) : List Char → List Char
  | [] => []
  | x :: cs =>
      if x = ' ' then
        (if prev then collapseSpAux true cs else ' ' :: collapseSpAux true cs)
      else x :: collapseSpAux false cs

/-- `compact_html`: the character scan, the four cleanup substitutions, and
the final strip. -/
def compactCore (l : List Char) : List Char :=
  pyStrip (collapseSpAux false
    (gapATAux false (gapBTAux [] (gapTTAux none (compactScan false false l)))))

/-- `compact_html` on strings. -/
def compact_html (s : String) : String := String.mk (compactCore s.toList)

/-- Adjacent-pair predicate: `R` holds of every pair of neighbouring
characters. -/
def adjOK (R : Char → Char → Bool) : List Char → Bool
  | a :: b :: l => R a b && adjOK R (b :: l)
  | _ => true

/-- No two neighbouring space/tab characters (pass (a) invariant). -/
def hwsR (a b : Char) : Bool := !(isHWS a && isHWS b)

/-- No space next to a newline, on either side (pass (b) invariant). -/
def spNlR (a b : Char) : Bool :=
  !((a == ' ' && b == '\n') || (a == '\n' && b == ' '))

/-- No run of three or more newlines (pass (c) invariant), as a sliding
window over all length-three segments. -/
def noTripleNL : List Char → Bool
  | a :: b :: c :: l =>
      !(a == '\n' && b == '\n' && c == '\n') && noTripleNL (b :: c :: l)
  | _ => true

/-- Some whitespace character sits directly between two CJK characters. -/
def hasWSBetweenCJK : List Char → Bool
  | a :: b :: c :: l =>
      (isCJK a && isPySpace b && isCJK c) || hasWSBetweenCJK (b :: c :: l)
  | _ => false

/-- Split a character list into its newline-separated lines. -/
def splitNL : List Char → List (List Char)
  | [] => [[]]
  | c :: cs =>
      if c = '\n' then [] :: splitNL cs
      else
        match splitNL cs with
        | [] => [[c]]
        | t :: ts => (c :: t) :: ts

/-- Join lines with single newlines (the inverse of `splitNL`). -/
def joinNL : List (List Char) → List Char
  | [] => []
  | [t] => t
  | t :: ts => t ++ '\n' :: joinNL ts

/-- Some line has a leading or a trailing whitespace character. -/
def hasEdgeWSLine (l : List Char) : Bool :=
  (splitNL l).any fun ln =>
    (ln.head?.elim false isPySpace) || (ln.getLast?.elim false isPySpace)

/-- The `</div>` to `</div><br>` substitution of the json and csv
`extract_content` (performed on the markup before the body flattening). -/
def insertBrAfterDiv : List Char → List Char
  | '<' :: '/' :: 'd' :: 'i' :: 'v' :: '>' :: cs =>
      '<' :: '/' :: 'd' :: 'i' :: 'v' :: '>' :: '<' :: 'b' :: 'r' :: '>' ::
        insertBrAfterDiv cs
  | c :: cs => c :: insertBrAfterDiv cs
  | [] => []

/-- Read the interior of a tag up to the closing bracket; `none` when the
tag is unterminated.  The accumulator collects the interior reversed. -/
def readTag (acc : List Char) : List Char → Option (List Char × List Char)
  | [] => none
  | c :: cs => if c = '>' then some (acc.reverse, cs) else readTag (c :: acc) cs

/-- The name of a tag: its interior up to the first space, lowercased. -/
def tagNameOf (tag : List Char) : List Char :=
  (tag.takeWhile fun c => !(c == ' ')).map Char.toLower

/-- Tags whose closing contributes a paragraph break in the model. -/
def isBlockClose (name : List Char) : Bool :=
  name == "/div".toList || name == "/p".toList || name == "/li".toList ||
  name == "/h1".toList || name == "/h2".toList || name == "/h3".toList ||
  name == "/h4".toList || name == "/h5".toList || name == "/h6".toList ||
  name == "/body".toList || name == "/html".toList

/-- Modelled from the spec: the markup flattener (title extraction via
BeautifulSoup plus body rendering via html2text, third-party code not
under `src/`).  One fuelled scan: text between the title tags goes to the
title, other text to the body; a closing block tag contributes a paragraph
break, a line-break tag a single newline; an unterminated tag ends the
scan with the text gathered so far (best effort, never a failure). -/
def flattenFuel : Nat → Bool → List Char → List Char × List Char
  | 0, _, _ => ([], [])
  | _ + 1, _, [] => ([], [])
  | n + 1, inTitle, c :: cs =>
      if c = '<' then
        match readTag [] cs with
        | none => ([], [])
        | some (tag, rest) =>
            let name := tagNameOf tag
            let inTitle' :=
              if name == "title".toList then true
              else if name == "/title".toList then false
              else inTitle
            let p := flattenFuel n inTitle' rest
            if isBlockClose name && !inTitle then
              (p.1, '\n' :: '\n' :: p.2)
            else if (name == "br".toList || name == "br/".toList) && !inTitle then
              (p.1, '\n' :: p.2)
            else p
      else
        let p := flattenFuel n inTitle cs
        if inTitle then (c :: p.1, p.2) else (p.1, c :: p.2)

/-- Modelled from the spec: flatten markup to a raw title and a raw body. -/
def flattenModel (l : List Char) : List Char × List Char :=
  flattenFuel (l.length + 1) false l

/-- Modelled from the spec: `extract_content` of the json creator over the
modelled flattener — the title is the stripped title text after entity
decoding and NFKC, the body is the flattened text (after the `</div>`
line-break insertion) run through the post-processing chain. -/
def extractContentModel (l : List Char) : List Char × List Char :=
  (nfkc (unescape (pyStrip (flattenModel l).1)),
   normalizePost (nfkc (unescape (flattenModel (insertBrAfterDiv l)).2)))

/-- The Hebrew block test of the bidi repair heuristic. -/
def isHebrew (c : Char) : Bool := 0x0590 ≤ c.toNat && c.toNat ≤ 0x05FF

/-- Modelled from the spec: the text contains right-to-left script when
any of its first 200 code points falls in the Hebrew block. -/
def containsRTL (l : List Char) : Bool := (l.take 200).any isHebrew

/-- Whitespace-separated tokens (empty tokens dropped, as in Python's
argumentless split).  The accumulator holds the current token reversed. -/
def wsTokensAux (acc : List Char) : List Char → List (List Char)
  | [] => if acc.isEmpty then [] else [acc.reverse]
  | c :: cs =>
      if isPySpace c then
        (if acc.isEmpty then wsTokensAux [] cs
         else acc.reverse :: wsTokensAux [] cs)
      else wsTokensAux (c :: acc) cs

/-- Whitespace-separated tokens of a text. -/
def wsTokens (l : List Char) : List (List Char) := wsTokensAux [] l

/-- A nonempty token consisting solely of ASCII letters. -/
def isAsciiAlphaTok (t : List Char) : Bool :=
  !t.isEmpty && t.all fun c =>
    ('a' ≤ c && c ≤ 'z') || ('A' ≤ c && c ≤ 'Z')

/-- Modelled from the spec: the text is judged to be in reversed visual
order when, among its first 20 whitespace-separated tokens, some token
contains a Hebrew-block character and some token is purely ASCII
alphabetic. -/
def isReversedVisual (l : List Char) : Bool :=
  ((wsTokens l).take 20).any (fun t => t.any isHebrew) &&
  ((wsTokens l).take 20).any isAsciiAlphaTok

/-- Modelled from the spec: the Unicode bidirectional reordering of one
line recovered from visual order, modelled as code-point reversal of the
line (the model is only applied to lines that contain right-to-left
characters). -/
def bidiReorderLine (l : List Char) : List Char := l.reverse

/-- Modelled from the spec: `repair_rtl` — when the text both contains
right-to-left script and is judged visually reversed, reorder each line
containing right-to-left characters and pass every other line through;
otherwise return the text unchanged. -/
def repair_rtl (l : List Char) : List Char :=
  if containsRTL l && isReversedVisual l then
    joinNL ((splitNL l).map fun ln =>
      if ln.any isHebrew then bidiReorderLine ln else ln)
  else l

/-- A closing script tag occurs somewhere in the text: some suffix,
viewed through the same lowercased ten-character window as the scan,
starts with the closing script tag. -/
def hasCloseScriptTag : List Char → Bool
  | [] => false
  | c :: cs =>
      List.isPrefixOf "</script".toList
        (List.map Char.toLower (List.take 10 (c :: cs))) ||
      hasCloseScriptTag cs

/-- No character of the 0x00-0x1F range other than tab, LF, CR occurs. -/
def noBadControlChars (l : List Char) : Bool := l.all fun c => !isBadControl c

/-- Neither the first nor the last character is whitespace. -/
def noEdgeWS (l : List Char) : Bool :=
  (l.head?.all fun c => !isPySpace c) && (l.getLast?.all fun c => !isPySpace c)

/-- Some newline sits directly between two CJK characters. -/
def hasNLBetweenCJK : List Char → Bool
  | a :: b :: c :: l =>
      (isCJK a && b == '\n' && isCJK c) || hasNLBetweenCJK (b :: c :: l)
  | _ => false

/-! ## Generic toolkit: character facts and adjacency predicates -/

theorem isPySpace_toNat_le {c : Char} (h : isPySpace c = true) :
    c.toNat ≤ 0x3000 := by
  simp only [isPySpace, Bool.or_eq_true, Bool.and_eq_true, beq_iff_eq,
    decide_eq_true_eq] at h
  omega

theorem isCJK_toNat_ge {c : Char} (h : isCJK c = true) : 0x3040 ≤ c.toNat := by
  simp only [isCJK, Bool.or_eq_true, Bool.and_eq_true, decide_eq_true_eq] at h
  omega

theorem isCJK_not_pySpace {c : Char} (h : isCJK c = true) :
    isPySpace c = false := by
  by_contra hc
  have h1 := isPySpace_toNat_le (by simpa using hc)
  have h2 := isCJK_toNat_ge h
  omega

theorem isCJK_not_hws {c : Char} (h : isCJK c = true) : isHWS c = false := by
  rcases hc : isHWS c with _ | _
  · rfl
  · exfalso
    simp only [isHWS, Bool.or_eq_true, beq_iff_eq] at hc
    rcases hc with hc | hc <;> subst hc <;> exact absurd h (by decide)

theorem isCJK_ne_space {c : Char} (h : isCJK c = true) : c ≠ ' ' := by
  intro hc; subst hc; exact absurd h (by decide)

theorem isCJK_ne_nl {c : Char} (h : isCJK c = true) : c ≠ '\n' := by
  intro hc; subst hc; exact absurd h (by decide)

theorem adjOK_tail {R : Char → Char → Bool} {a : Char} {l : List Char}
    (h : adjOK R (a :: l) = true) : adjOK R l = true := by
  cases l with
  | nil => rfl
  | cons b t => simp only [adjOK, Bool.and_eq_true] at h; exact h.2

theorem adjOK_cons_iff {R : Char → Char → Bool} {a : Char} {l : List Char} :
    adjOK R (a :: l) = true ↔
      (∀ b, l.head? = some b → R a b = true) ∧ adjOK R l = true := by
  cases l with
  | nil => simp [adjOK]
  | cons b t => simp [adjOK, Bool.and_eq_true]

theorem adjOK_append_right {R : Char → Char → Bool} :
    ∀ {A l : List Char}, adjOK R (A ++ l) = true → adjOK R l = true := by
  intro A
  induction A with
  | nil => exact fun h => h
  | cons a A ih => exact fun h => ih (adjOK_tail h)

theorem adjOK_replace_suffix {R : Char → Char → Bool} :
    ∀ {A l m : List Char}, adjOK R (A ++ l) = true → l.head? = m.head? →
      adjOK R m = true → adjOK R (A ++ m) = true := by
  intro A
  induction A with
  | nil => exact fun _ _ hm => hm
  | cons a A ih =>
      intro l m h hh hm
      rw [List.cons_append, adjOK_cons_iff]
      rw [List.cons_append, adjOK_cons_iff] at h
      refine ⟨fun b hb => ?_, ih h.2 hh hm⟩
      apply h.1
      cases A with
      | nil => simpa [hh] using hb
      | cons x X => simpa using hb

theorem noTripleNL_tail {a : Char} {l : List Char}
    (h : noTripleNL (a :: l) = true) : noTripleNL l = true := by
  cases l with
  | nil => rfl
  | cons b t =>
      cases t with
      | nil => rfl
      | cons c u => simp only [noTripleNL, Bool.and_eq_true] at h; exact h.2

theorem noTripleNL_cons_iff {a : Char} {l : List Char} :
    noTripleNL (a :: l) = true ↔
      (¬(a = '\n' ∧ l.take 2 = ['\n', '\n'])) ∧ noTripleNL l = true := by
  cases l with
  | nil => simp [noTripleNL]
  | cons b t =>
      cases t with
      | nil => simp [noTripleNL]
      | cons c u =>
          simp [noTripleNL, Bool.and_eq_true, List.take]
          tauto

theorem noTripleNL_cons_of_ne {a : Char} {l : List Char} (ha : a ≠ '\n')
    (h : noTripleNL l = true) : noTripleNL (a :: l) = true := by
  rw [noTripleNL_cons_iff]
  exact ⟨fun hc => ha hc.1, h⟩

theorem noTripleNL_append_right :
    ∀ {A l : List Char}, noTripleNL (A ++ l) = true → noTripleNL l = true := by
  intro A
  induction A with
  | nil => exact fun h => h
  | cons a A ih => exact fun h => ih (noTripleNL_tail h)

theorem take_congr_append {l m : List Char} (A : List Char)
    (h : l.take 2 = m.take 2) : (A ++ l).take 2 = (A ++ m).take 2 := by
  rcases A with _ | ⟨a, _ | ⟨b, B⟩⟩
  · simpa using h
  · simp only [List.cons_append, List.nil_append, List.take]
    have := congrArg (List.take 1) h
    simpa [List.take_take] using this
  · simp [List.take]

theorem noTripleNL_replace_suffix :
    ∀ {A l m : List Char}, noTripleNL (A ++ l) = true → l.take 2 = m.take 2 →
      noTripleNL m = true → noTripleNL (A ++ m) = true := by
  intro A
  induction A with
  | nil => exact fun _ _ hm => hm
  | cons a A ih =>
      intro l m h ht hm
      rw [List.cons_append, noTripleNL_cons_iff]
      rw [List.cons_append, noTripleNL_cons_iff] at h
      refine ⟨fun hc => h.1 ⟨hc.1, ?_⟩, ih h.2 ht hm⟩
      rw [take_congr_append A ht]
      exact hc.2

/-! ## Pass (a): the output has no two adjacent spaces/tabs, and inputs
already in that shape are fixed points -/

theorem adjOK_replicate {R : Char → Char → Bool} {a : Char}
    (h : R a a = true) : ∀ k, adjOK R (List.replicate k a) = true := by
  intro k
  induction k with
  | zero => rfl
  | succ n ih =>
      cases n with
      | zero => rfl
      | succ m =>
          rw [List.replicate_succ, adjOK_cons_iff]
          refine ⟨fun b hb => ?_, ih⟩
          rw [List.replicate_succ, List.head?_cons, Option.some_inj] at hb
          subst hb; exact h

theorem adjOK_replicate_append {R : Char → Char → Bool} {a : Char}
    (haa : R a a = true) : ∀ (k : Nat) {l : List Char},
    (∀ b, l.head? = some b → R a b = true) → adjOK R l = true →
    adjOK R (List.replicate k a ++ l) = true := by
  intro k
  induction k with
  | zero => exact fun _ hl => hl
  | succ n ih =>
      intro l hh hl
      rw [List.replicate_succ, List.cons_append, adjOK_cons_iff]
      refine ⟨fun b hb => ?_, ih hh hl⟩
      cases n with
      | zero => exact hh b (by simpa using hb)
      | succ m =>
          rw [List.replicate_succ, List.cons_append, List.head?_cons,
            Option.some_inj] at hb
          subst hb; exact haa

theorem adjOK_append_left {R : Char → Char → Bool} :
    ∀ {A l : List Char}, adjOK R (A ++ l) = true → adjOK R A = true := by
  intro A
  induction A with
  | nil => exact fun _ => rfl
  | cons a A ih =>
      intro l h
      rw [List.cons_append, adjOK_cons_iff] at h
      rw [adjOK_cons_iff]
      refine ⟨fun b hb => ?_, ih h.2⟩
      apply h.1
      cases A with
      | nil => cases hb
      | cons x X => simpa using hb

theorem collapseHWSAux_adjOK : ∀ (st : Option (Char × Bool)) (l : List Char),
    adjOK hwsR (collapseHWSAux st l) = true := by
  intro st l
  induction st, l using collapseHWSAux.induct with
  | case1 => rfl
  | case2 p more => cases more <;> rfl
  | case3 c cs h ih => rw [collapseHWSAux, if_pos h]; exact ih
  | case4 c cs h ih =>
      have hc : isHWS c = false := by simpa using h
      rw [collapseHWSAux, if_neg h, adjOK_cons_iff]
      exact ⟨fun b _ => by simp [hwsR, hc], ih⟩
  | case5 p more c cs h ih => rw [collapseHWSAux, if_pos h]; exact ih
  | case6 p more c cs h ih =>
      have hc : isHWS c = false := by simpa using h
      rw [collapseHWSAux, if_neg h, adjOK_cons_iff]
      refine ⟨fun b hb => ?_, ?_⟩
      · rw [List.head?_cons, Option.some_inj] at hb
        subst hb; simp [hwsR, hc]
      · rw [adjOK_cons_iff]
        exact ⟨fun b _ => by simp [hwsR, hc], ih⟩

theorem collapseHWS_adjOK (l : List Char) :
    adjOK hwsR (collapseHWS l) = true := collapseHWSAux_adjOK none l

theorem collapseHWSAux_fix : ∀ (st : Option (Char × Bool)) (l : List Char),
    (match st with
     | none => adjOK hwsR l = true
     | some (p, more) =>
         more = false ∧ isHWS p = true ∧ adjOK hwsR (p :: l) = true) →
    collapseHWSAux st l =
      (match st with
       | none => l
       | some (p, _) => p :: l) := by
  intro st l
  induction st, l using collapseHWSAux.induct with
  | case1 => intro _; rfl
  | case2 p more =>
      rintro ⟨hm, -, -⟩
      subst hm; rfl
  | case3 c cs h ih =>
      intro hadj
      rw [collapseHWSAux, if_pos h]
      exact ih ⟨rfl, h, hadj⟩
  | case4 c cs h ih =>
      intro hadj
      rw [collapseHWSAux, if_neg h]
      exact congrArg (c :: ·) (ih (adjOK_tail hadj))
  | case5 p more c cs h ih =>
      rintro ⟨-, hp, hadj⟩
      exfalso
      rw [adjOK_cons_iff] at hadj
      have := hadj.1 c (by rfl)
      simp [hwsR, hp, h] at this
  | case6 p more c cs h ih =>
      rintro ⟨hm, hp, hadj⟩
      subst hm
      rw [collapseHWSAux, if_neg h]
      have : collapseHWSAux none cs = cs :=
        ih (adjOK_tail (adjOK_tail hadj))
      simp [this]

/-! ## Pass (b): spaces adjacent to newlines are removed; inputs without
them are fixed points; no new space/tab adjacency is created -/

theorem trimNLAux_skip_head_ne_space :
    ∀ cs : List Char, (trimNLAux true 0 cs).head? ≠ some ' ' := by
  intro cs
  induction cs with
  | nil => simp [trimNLAux]
  | cons c cs ih =>
      by_cases hsp : c = ' '
      · subst hsp
        simpa [trimNLAux] using ih
      · by_cases hnl : c = '\n'
        · subst hnl
          simp [trimNLAux]
        · simp [trimNLAux, hsp, hnl]

theorem trimNLAux_spNl : ∀ (skip : Bool) (k : Nat) (l : List Char),
    adjOK spNlR (trimNLAux skip k l) = true := by
  intro skip k l
  induction skip, k, l using trimNLAux.induct with
  | case1 skip k =>
      rw [trimNLAux]
      exact adjOK_replicate (by decide) k
  | case2 k cs ih => simpa [trimNLAux] using ih
  | case3 skip k cs hskip ih =>
      have hs : skip = false := by simpa using hskip
      subst hs
      simpa [trimNLAux] using ih
  | case4 skip k cs hnn ih =>
      rw [trimNLAux, if_neg hnn, if_pos rfl]
      rw [adjOK_cons_iff]
      refine ⟨fun b hb => ?_, ih⟩
      have hb' : b ≠ ' ' := by
        intro hbs
        subst hbs
        exact trimNLAux_skip_head_ne_space cs hb
      simp [spNlR, hb']
  | case5 skip k c cs hsp hnl ih =>
      rw [trimNLAux, if_neg hsp, if_neg hnl]
      refine adjOK_replicate_append (by decide) k (fun b hb => ?_) ?_
      · rw [List.head?_cons, Option.some_inj] at hb
        subst hb
        simp [spNlR, hnl]
      · rw [adjOK_cons_iff]
        exact ⟨fun b _ => by simp [spNlR, hsp, hnl], ih⟩

theorem trimNL_spNl (l : List Char) : adjOK spNlR (trimNL l) = true :=
  trimNLAux_spNl false 0 l

theorem trimNLAux_head_not_hws {cs : List Char}
    (h : ∀ d, cs.head? = some d → isHWS d = false) :
    ∀ b, (trimNLAux false 0 cs).head? = some b → isHWS b = false := by
  intro b hb
  cases cs with
  | nil => simp [trimNLAux] at hb
  | cons d cs =>
      have hd : isHWS d = false := h d rfl
      have hds : d ≠ ' ' := by
        intro hc; subst hc; simp [isHWS] at hd
      by_cases hnl : d = '\n'
      · subst hnl
        rw [trimNLAux, if_neg hds] at hb
        simp at hb
        subst hb; rfl
      · rw [trimNLAux, if_neg hds, if_neg hnl] at hb
        simp at hb
        subst hb; exact hd

theorem adjOK_hws_replicate_le {k : Nat} {X : List Char}
    (h : adjOK hwsR (List.replicate k ' ' ++ X) = true) : k ≤ 1 := by
  by_contra hk
  push_neg at hk
  obtain ⟨m, rfl⟩ : ∃ m, k = m + 2 := ⟨k - 2, by omega⟩
  rw [List.replicate_succ, List.replicate_succ, List.cons_append,
    List.cons_append, adjOK_cons_iff] at h
  have := h.1 ' ' (by cases m <;> simp [List.replicate_succ])
  simp [hwsR, isHWS] at this

theorem trimNLAux_hws : ∀ (skip : Bool) (k : Nat) (l : List Char),
    adjOK hwsR (List.replicate k ' ' ++ l) = true →
    adjOK hwsR (trimNLAux skip k l) = true := by
  intro skip k l
  induction skip, k, l using trimNLAux.induct with
  | case1 skip k =>
      intro h
      rw [trimNLAux]
      exact adjOK_append_left (l := []) (by simpa using h)
  | case2 k cs ih =>
      intro h
      have h' : adjOK hwsR (' ' :: cs) = true := adjOK_append_right h
      simpa [trimNLAux] using ih (adjOK_tail h')
  | case3 skip k cs hskip ih =>
      have hs : skip = false := by simpa using hskip
      subst hs
      intro h
      rw [trimNLAux]
      simp only [reduceIte]
      apply ih
      rwa [List.replicate_succ', List.append_assoc, List.singleton_append]
  | case4 skip k cs hnn ih =>
      intro h
      rw [trimNLAux, if_neg hnn, if_pos rfl]
      rw [adjOK_cons_iff]
      refine ⟨fun b _ => by simp [hwsR, isHWS], ?_⟩
      exact ih (by simpa using adjOK_tail (adjOK_append_right h))
  | case5 skip k c cs hsp hnl ih =>
      intro h
      rw [trimNLAux, if_neg hsp, if_neg hnl]
      have hk : k ≤ 1 := adjOK_hws_replicate_le h
      have hcc : adjOK hwsR (c :: cs) = true := adjOK_append_right h
      have hrec : adjOK hwsR (trimNLAux false 0 cs) = true :=
        ih (adjOK_tail hcc)
      have hccrec : adjOK hwsR (c :: trimNLAux false 0 cs) = true := by
        rw [adjOK_cons_iff]
        refine ⟨fun b hb => ?_, hrec⟩
        rcases hcw : isHWS c with _ | _
        · simp [hwsR, hcw]
        · have hhead : ∀ d, cs.head? = some d → isHWS d = false := by
            intro d hd
            rw [adjOK_cons_iff] at hcc
            have := hcc.1 d hd
            rcases hdw : isHWS d with _ | _
            · rfl
            · simp [hwsR, hcw, hdw] at this
          have := trimNLAux_head_not_hws hhead b hb
          simp [hwsR, this]
      interval_cases k
      · simpa using hccrec
      · rw [List.replicate_one, List.singleton_append] at h ⊢
        rw [adjOK_cons_iff]
        refine ⟨fun b hb => ?_, hccrec⟩
        rw [List.head?_cons, Option.some_inj] at hb
        subst hb
        rw [adjOK_cons_iff] at h
        exact h.1 c rfl

theorem spNl_replicate_nl_absurd : ∀ (k : Nat) {cs : List Char},
    adjOK spNlR (List.replicate (k + 1) ' ' ++ '\n' :: cs) = true → False := by
  intro k
  induction k with
  | zero =>
      intro cs h
      rw [List.replicate_one, List.singleton_append, adjOK_cons_iff] at h
      have := h.1 '\n' rfl
      simp [spNlR] at this
  | succ n ih =>
      intro cs h
      rw [List.replicate_succ, List.cons_append] at h
      exact ih (adjOK_tail h)

theorem trimNLAux_fix : ∀ (skip : Bool) (k : Nat) (l : List Char),
    adjOK spNlR (List.replicate k ' ' ++ l) = true →
    (skip = true → l.head? ≠ some ' ') →
    trimNLAux skip k l = List.replicate k ' ' ++ l := by
  intro skip k l
  induction skip, k, l using trimNLAux.induct with
  | case1 skip k =>
      intro _ _
      rw [trimNLAux, List.append_nil]
  | case2 k cs ih =>
      intro _ hskip
      exact absurd rfl (hskip rfl)
  | case3 skip k cs hskip ih =>
      have hs : skip = false := by simpa using hskip
      subst hs
      intro h _
      rw [trimNLAux, if_pos rfl]
      simp only [Bool.false_eq_true, reduceIte]
      have he : List.replicate (k + 1) ' ' ++ cs =
          List.replicate k ' ' ++ ' ' :: cs := by
        rw [List.replicate_succ', List.append_assoc, List.singleton_append]
      rw [← he] at h ⊢
      exact ih h (by simp)
  | case4 skip k cs hnn ih =>
      intro h hskip
      cases k with
      | succ m => exact absurd h (fun hc => spNl_replicate_nl_absurd m hc)
      | zero =>
          rw [List.replicate_zero, List.nil_append] at h ⊢
          rw [trimNLAux, if_neg hnn, if_pos rfl]
          have hhd : cs.head? ≠ some ' ' := by
            intro hc
            rw [adjOK_cons_iff] at h
            have := h.1 ' ' hc
            simp [spNlR] at this
          rw [ih (by simpa using adjOK_tail h) (fun _ => hhd)]
          simp
  | case5 skip k c cs hsp hnl ih =>
      intro h hskip
      rw [trimNLAux, if_neg hsp, if_neg hnl]
      rw [ih (by simpa using adjOK_tail (adjOK_append_right h)) (by simp)]
      simp

theorem trimNL_fix {l : List Char} (h : adjOK spNlR l = true) :
    trimNL l = l := by
  have := trimNLAux_fix false 0 l (by simpa using h) (by simp)
  simpa [trimNL] using this

/-! ## Pass (c): newline runs of three or more are collapsed to two;
inputs without them are fixed points; other adjacencies are untouched -/

theorem collapseNLAux_head_pos : ∀ (l : List Char) (k : Nat),
    (collapseNLAux (k + 1) l).head? = some '\n' := by
  intro l
  induction l with
  | nil =>
      intro k
      rw [collapseNLAux]
      split
      · rfl
      · simp [List.replicate_succ]
  | cons c cs ih =>
      intro k
      rw [collapseNLAux]
      by_cases hnl : c = '\n'
      · rw [if_pos hnl]
        exact ih (k + 1)
      · rw [if_neg hnl]
        split
        · rfl
        · simp [List.replicate_succ]

theorem collapseNLAux_head_zero : ∀ (l : List Char),
    (collapseNLAux 0 l).head? = l.head? := by
  intro l
  cases l with
  | nil => rfl
  | cons c cs =>
      rw [collapseNLAux]
      by_cases hnl : c = '\n'
      · rw [if_pos hnl, hnl]
        exact collapseNLAux_head_pos cs 0
      · rw [if_neg hnl]
        rfl

theorem adjOK_replicate_append_pair {R : Char → Char → Bool} :
    ∀ (k : Nat) {a b : Char} {X : List Char},
    adjOK R (List.replicate (k + 1) a ++ b :: X) = true → R a b = true := by
  intro k
  induction k with
  | zero =>
      intro a b X h
      rw [List.replicate_one, List.singleton_append, adjOK_cons_iff] at h
      exact h.1 b rfl
  | succ n ih =>
      intro a b X h
      rw [List.replicate_succ, List.cons_append] at h
      exact ih (adjOK_tail h)

theorem replicate_append_shift {a : Char} {k : Nat} {cs : List Char} :
    List.replicate (k + 1) a ++ cs = List.replicate k a ++ a :: cs := by
  rw [List.replicate_succ', List.append_assoc, List.singleton_append]

theorem collapseNLAux_adjOK {R : Char → Char → Bool}
    (hnn : R '\n' '\n' = true) : ∀ (k : Nat) (l : List Char),
    adjOK R (List.replicate k '\n' ++ l) = true →
    adjOK R (collapseNLAux k l) = true := by
  intro k l
  induction k, l using collapseNLAux.induct with
  | case1 k =>
      intro _
      rw [collapseNLAux]
      exact adjOK_replicate hnn _
  | case2 k cs ih =>
      intro h
      rw [collapseNLAux, if_pos rfl]
      exact ih (by rwa [← replicate_append_shift] at h)
  | case3 k c cs hnl ih =>
      intro h
      rw [collapseNLAux, if_neg hnl]
      have hcs : adjOK R (c :: cs) = true := adjOK_append_right h
      have hrec : adjOK R (collapseNLAux 0 cs) = true :=
        ih (by simpa using adjOK_tail hcs)
      have hcrec : adjOK R (c :: collapseNLAux 0 cs) = true := by
        rw [adjOK_cons_iff]
        refine ⟨fun b hb => ?_, hrec⟩
        rw [adjOK_cons_iff] at hcs
        exact hcs.1 b (by rwa [collapseNLAux_head_zero] at hb)
      cases k with
      | zero => simpa using hcrec
      | succ m =>
          have hpair : R '\n' c = true := adjOK_replicate_append_pair m h
          refine adjOK_replicate_append hnn _ (fun b hb => ?_) hcrec
          rw [List.head?_cons, Option.some_inj] at hb
          subst hb
          exact hpair

theorem noTriple_one_cons {c : Char} {T : List Char} (hc : c ≠ '\n')
    (hT : noTripleNL T = true) :
    noTripleNL ('\n' :: c :: T) = true := by
  rw [noTripleNL_cons_iff]
  refine ⟨fun hcon => ?_, noTripleNL_cons_of_ne hc hT⟩
  rw [List.take_succ_cons] at hcon
  exact hc (List.cons.injEq .. ▸ hcon.2).1

theorem noTriple_le2_cons : ∀ (j : Nat), j ≤ 2 → ∀ {c : Char} {T : List Char},
    c ≠ '\n' → noTripleNL T = true →
    noTripleNL (List.replicate j '\n' ++ c :: T) = true := by
  intro j hj c T hc hT
  interval_cases j
  · exact noTripleNL_cons_of_ne hc hT
  · rw [List.replicate_one, List.singleton_append]
    exact noTriple_one_cons hc hT
  · rw [List.replicate_succ, List.replicate_one, List.cons_append,
      List.singleton_append, noTripleNL_cons_iff]
    refine ⟨fun hcon => ?_, noTriple_one_cons hc hT⟩
    rw [List.take_succ_cons, List.take_succ_cons] at hcon
    exact hc (List.cons.injEq .. ▸ (List.cons.injEq .. ▸ hcon.2).2).1

theorem collapseNLAux_noTriple : ∀ (k : Nat) (l : List Char),
    noTripleNL (collapseNLAux k l) = true := by
  intro k l
  induction k, l using collapseNLAux.induct with
  | case1 k =>
      rw [collapseNLAux]
      split
      · decide
      · rename_i h3
        have hk : k ≤ 2 := by omega
        interval_cases k <;> decide
  | case2 k cs ih => rw [collapseNLAux, if_pos rfl]; exact ih
  | case3 k c cs hnl ih =>
      rw [collapseNLAux, if_neg hnl]
      split
      · exact noTriple_le2_cons 2 (by omega) hnl ih
      · rename_i h3
        exact noTriple_le2_cons k (by omega) hnl ih

theorem noTriple_replicate3_absurd : ∀ (k : Nat) {X : List Char},
    noTripleNL (List.replicate (k + 3) '\n' ++ X) = true → False := by
  intro k
  induction k with
  | zero =>
      intro X h
      simp [List.replicate_succ, noTripleNL] at h
  | succ n ih =>
      intro X h
      rw [List.replicate_succ, List.cons_append] at h
      exact ih (noTripleNL_tail h)

theorem collapseNLAux_fix : ∀ (k : Nat) (l : List Char),
    noTripleNL (List.replicate k '\n' ++ l) = true →
    collapseNLAux k l = List.replicate k '\n' ++ l := by
  intro k l
  induction k, l using collapseNLAux.induct with
  | case1 k =>
      intro h
      have hk : k ≤ 2 := by
        by_contra hk
        push_neg at hk
        obtain ⟨m, rfl⟩ : ∃ m, k = m + 3 := ⟨k - 3, by omega⟩
        exact noTriple_replicate3_absurd m h
      rw [collapseNLAux, if_neg (by omega), List.append_nil]
  | case2 k cs ih =>
      intro h
      rw [collapseNLAux, if_pos rfl, ← replicate_append_shift]
      exact ih (by rwa [← replicate_append_shift] at h)
  | case3 k c cs hnl ih =>
      intro h
      have hk : k ≤ 2 := by
        by_contra hk
        push_neg at hk
        obtain ⟨m, rfl⟩ : ∃ m, k = m + 3 := ⟨k - 3, by omega⟩
        exact noTriple_replicate3_absurd m h
      rw [collapseNLAux, if_neg hnl, if_neg (by omega)]
      have hcs : noTripleNL cs = true :=
        noTripleNL_tail (noTripleNL_append_right h)
      rw [ih (by simpa using hcs)]
      simp

/-! ## Pass (d): the CJK de-spacing deletes characters only between two
CJK characters, so the pass (a)-(c) invariants survive it -/

theorem cjkAux_some_head : ∀ (l : List Char) (c : Char) (ws : List Char),
    (cjkAux (some (c, ws)) l).head? = some c := by
  intro l
  induction l with
  | nil => intro c ws; rfl
  | cons x cs ih =>
      intro c ws
      rw [cjkAux]
      by_cases hsp : isPySpace x = true
      · rw [if_pos hsp]; exact ih c (x :: ws)
      · rw [if_neg hsp]
        by_cases hck : isCJK x = true
        · rw [if_pos hck]
          split <;> rfl
        · rw [if_neg hck]
          cases hws : ws.reverse <;> rfl

theorem cjkAux_none_head : ∀ (l : List Char),
    (cjkAux none l).head? = l.head? := by
  intro l
  cases l with
  | nil => rfl
  | cons x cs =>
      rw [cjkAux]
      by_cases hck : isCJK x = true
      · rw [if_pos hck, cjkAux_some_head]; rfl
      · rw [if_neg hck]; rfl

theorem head?_of_take2 {l : List Char} {a b : Char}
    (h : l.take 2 = [a, b]) : l.head? = some a := by
  cases l with
  | nil => simp at h
  | cons c t =>
      rw [List.take_succ_cons] at h
      rw [List.head?_cons, Option.some_inj]
      exact ((List.cons.injEq ..).mp h).1

theorem head?_of_take1 {l : List Char} {a : Char}
    (h : l.take 1 = [a]) : l.head? = some a := by
  cases l with
  | nil => simp at h
  | cons c t =>
      rw [List.take_succ_cons, List.take_zero] at h
      rw [List.head?_cons, Option.some_inj]
      exact ((List.cons.injEq ..).mp h).1

theorem take1_congr {l m : List Char} (h : l.head? = m.head?) :
    l.take 1 = m.take 1 := by
  cases l with
  | nil => cases m with
      | nil => rfl
      | cons x t => simp at h
  | cons x t =>
      cases m with
      | nil => simp at h
      | cons y u =>
          simp only [List.head?_cons, Option.some_inj] at h
          simp [List.take_succ_cons, h]

theorem cjk_junction_noTriple {x : Char} {cs : List Char}
    (h : noTripleNL (x :: cs) = true)
    (hrec : noTripleNL (cjkAux none cs) = true) :
    noTripleNL (x :: cjkAux none cs) = true := by
  rw [noTripleNL_cons_iff]
  refine ⟨fun hcon => ?_, hrec⟩
  obtain ⟨hx, h2⟩ := hcon
  cases cs with
  | nil => simp [cjkAux] at h2
  | cons d cs2 =>
      have hd : d = '\n' := by
        have := head?_of_take2 h2
        rw [cjkAux_none_head, List.head?_cons, Option.some_inj] at this
        exact this
      subst hd
      have he : cjkAux none ('\n' :: cs2) = '\n' :: cjkAux none cs2 := by
        rw [cjkAux, if_neg (by decide)]
      rw [he, List.take_succ_cons] at h2
      have h3 : (cjkAux none cs2).take 1 = ['\n'] :=
        ((List.cons.injEq ..).mp h2).2
      have h4 := head?_of_take1 h3
      rw [cjkAux_none_head] at h4
      cases cs2 with
      | nil => simp at h4
      | cons e cs3 =>
          have he2 : e = '\n' := by
            rw [List.head?_cons, Option.some_inj] at h4
            exact h4
          subst he2
          subst hx
          simp [noTripleNL] at h

theorem cjkAux_adjOK {R : Char → Char → Bool}
    (HR : ∀ a b, isCJK a = true → isCJK b = true → R a b = true) :
    ∀ (st : Option (Char × List Char)) (l : List Char),
    (match st with
     | none => True
     | some (c, _) => isCJK c = true) →
    adjOK R ((match st with
              | none => []
              | some (c, ws) => c :: ws.reverse) ++ l) = true →
    adjOK R (cjkAux st l) = true := by
  intro st l
  induction st, l using cjkAux.induct with
  | case1 => intro _ _; rfl
  | case2 c ws => intro _ h; simpa using h
  | case3 x cs hck ih =>
      intro _ h
      rw [cjkAux, if_pos hck]
      exact ih hck (by simpa using h)
  | case4 x cs hck ih =>
      intro _ h
      rw [cjkAux, if_neg hck, adjOK_cons_iff]
      simp only [List.nil_append] at h
      refine ⟨fun b hb => ?_, ih trivial (by simpa using adjOK_tail h)⟩
      rw [adjOK_cons_iff] at h
      exact h.1 b (by rwa [cjkAux_none_head] at hb)
  | case5 c ws x cs hsp ih =>
      intro hc h
      rw [cjkAux, if_pos hsp]
      apply ih hc
      show adjOK R ((c :: (x :: ws).reverse) ++ cs) = true
      rw [List.reverse_cons, List.cons_append, List.append_assoc,
        List.singleton_append]
      have h' : adjOK R ((c :: ws.reverse) ++ x :: cs) = true := h
      simpa using h'
  | case6 c ws x cs hsp hck hws ih =>
      intro hc h
      rw [cjkAux, if_neg hsp, if_pos hck, if_pos hws]
      have hwsnil : ws = [] := by
        cases ws with
        | nil => rfl
        | cons w t => simp at hws
      subst hwsnil
      simp only [List.reverse_nil, List.cons_append, List.nil_append] at h
      rw [adjOK_cons_iff]
      refine ⟨fun b hb => ?_, ih hck (by simpa using adjOK_tail h)⟩
      rw [cjkAux_some_head, Option.some_inj] at hb
      subst hb
      rw [adjOK_cons_iff] at h
      exact h.1 x rfl
  | case7 c ws x cs hsp hck hws ih =>
      intro hc h
      rw [cjkAux, if_neg hsp, if_pos hck, if_neg hws]
      have hxs : adjOK R (x :: cs) = true := adjOK_append_right h
      rw [adjOK_cons_iff]
      refine ⟨fun b hb => ?_, ?_⟩
      · rw [List.head?_cons, Option.some_inj] at hb
        subst hb
        exact HR c x hc hck
      · rw [adjOK_cons_iff]
        refine ⟨fun b hb => ?_, ih trivial (by simpa using adjOK_tail hxs)⟩
        rw [adjOK_cons_iff] at hxs
        exact hxs.1 b (by rwa [cjkAux_none_head] at hb)
  | case8 c ws x cs hsp hck ih =>
      intro hc h
      rw [cjkAux, if_neg hsp, if_neg hck]
      have hxs : adjOK R (x :: cs) = true :=
        adjOK_append_right (A := c :: ws.reverse) h
      have hm : adjOK R (x :: cjkAux none cs) = true := by
        rw [adjOK_cons_iff]
        refine ⟨fun b hb => ?_, ih trivial (by simpa using adjOK_tail hxs)⟩
        rw [adjOK_cons_iff] at hxs
        exact hxs.1 b (by rwa [cjkAux_none_head] at hb)
      have := adjOK_replace_suffix (A := c :: ws.reverse)
        (l := x :: cs) (m := x :: cjkAux none cs) h rfl hm
      simpa using this

theorem cjkAux_noTriple :
    ∀ (st : Option (Char × List Char)) (l : List Char),
    (match st with
     | none => True
     | some (c, _) => isCJK c = true) →
    noTripleNL ((match st with
                 | none => []
                 | some (c, ws) => c :: ws.reverse) ++ l) = true →
    noTripleNL (cjkAux st l) = true := by
  intro st l
  induction st, l using cjkAux.induct with
  | case1 => intro _ _; rfl
  | case2 c ws => intro _ h; simpa using h
  | case3 x cs hck ih =>
      intro _ h
      rw [cjkAux, if_pos hck]
      exact ih hck (by simpa using h)
  | case4 x cs hck ih =>
      intro _ h
      rw [cjkAux, if_neg hck]
      simp only [List.nil_append] at h
      exact cjk_junction_noTriple h (ih trivial (by simpa using noTripleNL_tail h))
  | case5 c ws x cs hsp ih =>
      intro hc h
      rw [cjkAux, if_pos hsp]
      apply ih hc
      show noTripleNL ((c :: (x :: ws).reverse) ++ cs) = true
      rw [List.reverse_cons, List.cons_append, List.append_assoc,
        List.singleton_append]
      have h' : noTripleNL ((c :: ws.reverse) ++ x :: cs) = true := h
      simpa using h'
  | case6 c ws x cs hsp hck hws ih =>
      intro hc h
      rw [cjkAux, if_neg hsp, if_pos hck, if_pos hws]
      have hwsnil : ws = [] := by
        cases ws with
        | nil => rfl
        | cons w t => simp at hws
      subst hwsnil
      simp only [List.reverse_nil, List.cons_append, List.nil_append] at h
      exact noTripleNL_cons_of_ne (isCJK_ne_nl hc)
        (ih hck (by simpa using noTripleNL_tail h))
  | case7 c ws x cs hsp hck hws ih =>
      intro hc h
      rw [cjkAux, if_neg hsp, if_pos hck, if_neg hws]
      have hxs : noTripleNL (x :: cs) = true :=
        noTripleNL_append_right (A := c :: ws.reverse) h
      refine noTripleNL_cons_of_ne (isCJK_ne_nl hc)
        (noTripleNL_cons_of_ne (isCJK_ne_nl hck) ?_)
      exact ih trivial (by simpa using noTripleNL_tail hxs)
  | case8 c ws x cs hsp hck ih =>
      intro hc h
      rw [cjkAux, if_neg hsp, if_neg hck]
      have hxs : noTripleNL (x :: cs) = true :=
        noTripleNL_append_right (A := c :: ws.reverse) h
      have hm : noTripleNL (x :: cjkAux none cs) = true :=
        cjk_junction_noTriple hxs
          (ih trivial (by simpa using noTripleNL_tail hxs))
      have hth : (x :: cs).take 2 = (x :: cjkAux none cs).take 2 := by
        rw [List.take_succ_cons, List.take_succ_cons]
        exact congrArg (x :: ·) (take1_congr (cjkAux_none_head cs).symm)
      have := noTripleNL_replace_suffix (A := c :: ws.reverse)
        (l := x :: cs) (m := x :: cjkAux none cs) h hth hm
      simpa using this

theorem cjkDespace_adjOK {R : Char → Char → Bool}
    (HR : ∀ a b, isCJK a = true → isCJK b = true → R a b = true)
    {l : List Char} (h : adjOK R l = true) :
    adjOK R (cjkDespace l) = true :=
  cjkAux_adjOK HR none l trivial (by simpa using h)

theorem cjkDespace_noTriple {l : List Char} (h : noTripleNL l = true) :
    noTripleNL (cjkDespace l) = true :=
  cjkAux_noTriple none l trivial (by simpa using h)

/-! ## Assembly: invariants and idempotence of the whitespace chain -/

theorem wsPasses_adjOK_hws (l : List Char) :
    adjOK hwsR (wsPasses l) = true := by
  rw [wsPasses]
  refine collapseNLAux_adjOK (by decide) 0 _ ?_
  rw [List.replicate_zero, List.nil_append, trimNL]
  exact trimNLAux_hws false 0 _
    (by simpa using collapseHWS_adjOK l)

theorem wsPasses_adjOK_spNl (l : List Char) :
    adjOK spNlR (wsPasses l) = true := by
  rw [wsPasses]
  refine collapseNLAux_adjOK (by decide) 0 _ ?_
  simpa using trimNLAux_spNl false 0 (collapseHWS l)

theorem wsPasses_noTriple (l : List Char) :
    noTripleNL (wsPasses l) = true := collapseNLAux_noTriple 0 _

theorem collapseHWS_fix {l : List Char} (h : adjOK hwsR l = true) :
    collapseHWS l = l := collapseHWSAux_fix none l h

theorem collapseNL_fix {l : List Char} (h : noTripleNL l = true) :
    collapseNL l = l := by
  have := collapseNLAux_fix 0 l (by simpa using h)
  simpa [collapseNL] using this

theorem wsPasses_idem (l : List Char) : wsPasses (wsPasses l) = wsPasses l := by
  have hA : adjOK hwsR (wsPasses l) = true := wsPasses_adjOK_hws l
  have hB : adjOK spNlR (wsPasses l) = true := wsPasses_adjOK_spNl l
  have hC : noTripleNL (wsPasses l) = true := wsPasses_noTriple l
  show collapseNL (trimNL (collapseHWS (wsPasses l))) = wsPasses l
  rw [collapseHWS_fix hA, trimNL_fix hB, collapseNL_fix hC]

theorem normalizePost_adjOK_hws (l : List Char) :
    adjOK hwsR (normalizePost l) = true := by
  rw [normalizePost]
  exact cjkDespace_adjOK
    (fun a b ha _ => by simp [hwsR, isCJK_not_hws ha])
    (wsPasses_adjOK_hws l)

theorem normalizePost_adjOK_spNl (l : List Char) :
    adjOK spNlR (normalizePost l) = true := by
  rw [normalizePost]
  refine cjkDespace_adjOK (fun a b ha _ => ?_) (wsPasses_adjOK_spNl l)
  simp [spNlR, beq_iff_eq, isCJK_ne_space ha, isCJK_ne_nl ha]

theorem normalizePost_noTriple (l : List Char) :
    noTripleNL (normalizePost l) = true := by
  rw [normalizePost]
  exact cjkDespace_noTriple (wsPasses_noTriple l)

/-! ## Pass (d): a whitespace run between two CJK anchors is removed when
the left anchor is live -/

theorem cjkAux_ws_run : ∀ (run buf : List Char) {c d : Char},
    isCJK c = true → isCJK d = true → run.all isPySpace = true →
    (run.isEmpty = false ∨ buf.isEmpty = false) →
    cjkAux (some (c, buf)) (run ++ [d]) = [c, d] := by
  intro run
  induction run with
  | nil =>
      intro buf c d _ hd _ hne
      have hbuf : buf.isEmpty = false := by
        rcases hne with h | h
        · simp at h
        · exact h
      rw [List.nil_append, cjkAux, if_neg (by simp [isCJK_not_pySpace hd]),
        if_pos hd, if_neg (by simp [hbuf])]
      rfl
  | cons w run ih =>
      intro buf c d hc hd hall hne
      rw [List.all_cons, Bool.and_eq_true] at hall
      rw [List.cons_append, cjkAux, if_pos hall.1]
      exact ih (w :: buf) hc hd hall.2 (Or.inr (by simp))

theorem cjkDespace_run {run : List Char} {c d : Char}
    (hc : isCJK c = true) (hd : isCJK d = true) (hrun : run ≠ [])
    (hall : run.all isPySpace = true) :
    cjkDespace (c :: (run ++ [d])) = [c, d] := by
  rw [cjkDespace, cjkAux, if_pos hc]
  refine cjkAux_ws_run run [] hc hd hall (Or.inl ?_)
  cases run with
  | nil => exact absurd rfl hrun
  | cons w t => rfl

/-! ## The scan phase of the compactor copies an unterminated tail
verbatim -/

theorem compactScan_inTag : ∀ (l : List Char) (protect : Bool),
    '>' ∉ l → compactScan true protect l = l := by
  intro l
  induction l with
  | nil => intro _ _; rfl
  | cons c cs ih =>
      intro protect h
      have hgt : ¬(c = '>') := fun hc => h (hc ▸ List.mem_cons_self c cs)
      have hcs : '>' ∉ cs := fun hc => h (List.mem_cons_of_mem c hc)
      by_cases hlt : c = '<'
      · subst hlt
        rw [compactScan, if_pos rfl]
        exact congrArg ('<' :: ·) (ih _ hcs)
      · rw [compactScan, if_neg hlt, if_neg hgt, if_pos (by simp)]
        exact congrArg (c :: ·) (ih protect hcs)

theorem compactScan_protect : ∀ (l : List Char) (inTag : Bool),
    hasCloseScriptTag l = false → compactScan inTag true l = l := by
  intro l
  induction l with
  | nil => intro _ _; rfl
  | cons c cs ih =>
      intro inTag h
      rw [hasCloseScriptTag, Bool.or_eq_false_iff] at h
      by_cases hlt : c = '<'
      · subst hlt
        rw [compactScan, if_pos rfl]
        refine congrArg ('<' :: ·) ?_
        split
        · exact ih true h.2
        · rw [if_neg (fun hc => Bool.false_ne_true (h.1 ▸ hc))]
          exact ih true h.2
      · by_cases hgt : c = '>'
        · subst hgt
          rw [compactScan, if_neg (by decide), if_pos rfl]
          exact congrArg ('>' :: ·) (ih false h.2)
        · rw [compactScan, if_neg hlt, if_neg hgt, if_pos (by simp)]
          exact congrArg (c :: ·) (ih inTag h.2)

/-! ## The sanitizer: control characters are gone, and the csv/json
variant leaves no surrounding whitespace -/

theorem dropWhile_head_not {p : Char → Bool} :
    ∀ {l : List Char} {b : Char}, (l.dropWhile p).head? = some b →
      p b = false := by
  intro l
  induction l with
  | nil => intro b h; simp [List.dropWhile] at h
  | cons c cs ih =>
      intro b h
      rw [List.dropWhile] at h
      rcases hp : p c with _ | _
      · rw [hp] at h
        simp only [List.head?_cons, Option.some_inj] at h
        subst h; exact hp
      · rw [hp] at h
        exact ih h

theorem getLast?_dropWhile {p : Char → Bool} :
    ∀ {l : List Char}, l.dropWhile p ≠ [] →
      (l.dropWhile p).getLast? = l.getLast? := by
  intro l
  induction l with
  | nil => intro h; rfl
  | cons c cs ih =>
      intro h
      rw [List.dropWhile_cons] at h ⊢
      by_cases hp : p c = true
      case neg => rw [if_neg hp]
      case pos =>
        rw [if_pos hp] at h ⊢
        have hcs : cs ≠ [] := by
          intro hc; subst hc; simp [List.dropWhile] at h
        obtain ⟨d, t, rfl⟩ : ∃ d t, cs = d :: t := by
          cases cs with
          | nil => exact absurd rfl hcs
          | cons d t => exact ⟨d, t, rfl⟩
        rw [ih h, List.getLast?_cons_cons]

theorem pyStrip_head_not {l : List Char} {b : Char}
    (h : (pyStrip l).head? = some b) : isPySpace b = false := by
  rw [pyStrip, List.head?_reverse] at h
  have hYne : (l.dropWhile isPySpace).reverse.dropWhile isPySpace ≠ [] := by
    intro hc
    rw [hc] at h
    cases h
  rw [getLast?_dropWhile hYne, List.getLast?_reverse] at h
  exact dropWhile_head_not h

theorem pyStrip_last_not {l : List Char} {b : Char}
    (h : (pyStrip l).getLast? = some b) : isPySpace b = false := by
  rw [pyStrip, List.getLast?_reverse] at h
  exact dropWhile_head_not h

theorem all_pyStrip {q : Char → Bool} {l : List Char}
    (h : l.all q = true) : (pyStrip l).all q = true := by
  rw [List.all_eq_true] at h ⊢
  intro c hc
  rw [pyStrip, List.mem_reverse] at hc
  have hc2 : c ∈ (l.dropWhile isPySpace).reverse :=
    (List.dropWhile_sublist _).subset hc
  rw [List.mem_reverse] at hc2
  exact h c ((List.dropWhile_sublist _).subset hc2)

theorem cleanControlCore_noBad (l : List Char) :
    noBadControlChars (cleanControlCore l) = true := by
  rw [cleanControlCore]
  split
  · rename_i he
    rw [List.isEmpty_iff.mp he]
    rfl
  · rw [noBadControlChars, List.all_eq_true]
    intro c hc
    exact (List.mem_filter.mp hc).2

theorem clean_control_chars_noBad (l : List Char) :
    noBadControlChars (clean_control_chars l) = true := by
  rw [clean_control_chars]
  split
  · rename_i he
    rw [List.isEmpty_iff.mp he]
    rfl
  · exact all_pyStrip (cleanControlCore_noBad l)

theorem clean_control_chars_noEdge (l : List Char) :
    noEdgeWS (clean_control_chars l) = true := by
  rw [clean_control_chars]
  split
  · rename_i he
    rw [List.isEmpty_iff.mp he]
    rfl
  · rw [noEdgeWS, Bool.and_eq_true]
    constructor
    · cases hh : (pyStrip (cleanControlCore l)).head? with
      | none => rfl
      | some b =>
          show (some b).all (fun c => !isPySpace c) = true
          simp [Option.all, pyStrip_head_not hh]
    · cases hh : (pyStrip (cleanControlCore l)).getLast? with
      | none => rfl
      | some b =>
          show (some b).all (fun c => !isPySpace c) = true
          simp [Option.all, pyStrip_last_not hh]

/-! ## Lines: splitting on newlines and joining back -/

theorem splitNL_ne_nil : ∀ l : List Char, splitNL l ≠ [] := by
  intro l
  cases l with
  | nil => simp [splitNL]
  | cons c cs =>
      rw [splitNL]
      split
      · simp
      · cases hsp : splitNL cs <;> simp

theorem splitNL_no_nl : ∀ (l : List Char) (ln : List Char),
    ln ∈ splitNL l → '\n' ∉ ln := by
  intro l
  induction l with
  | nil =>
      intro ln hln
      rw [splitNL, List.mem_singleton] at hln
      subst hln
      simp
  | cons c cs ih =>
      intro ln hln
      rw [splitNL] at hln
      by_cases hnl : c = '\n'
      · rw [if_pos hnl, List.mem_cons] at hln
        rcases hln with h | h
        · subst h; simp
        · exact ih ln h
      · rw [if_neg hnl] at hln
        cases hsp : splitNL cs with
        | nil => exact absurd hsp (splitNL_ne_nil cs)
        | cons t ts =>
            rw [hsp, List.mem_cons] at hln
            rcases hln with h | h
            · subst h
              intro hmem
              rw [List.mem_cons] at hmem
              rcases hmem with h | h
              · exact hnl h.symm
              · exact ih t (hsp ▸ List.mem_cons_self t ts) h
            · exact ih ln (hsp ▸ List.mem_cons_of_mem t h)

theorem joinNL_cons_of_ne {t : List Char} {ts : List (List Char)}
    (h : ts ≠ []) : joinNL (t :: ts) = t ++ '\n' :: joinNL ts := by
  cases ts with
  | nil => exact absurd rfl h
  | cons u us => rfl

theorem joinNL_splitNL : ∀ l : List Char, joinNL (splitNL l) = l := by
  intro l
  induction l with
  | nil => rfl
  | cons c cs ih =>
      rw [splitNL]
      by_cases hnl : c = '\n'
      · rw [if_pos hnl, joinNL_cons_of_ne (splitNL_ne_nil cs), ih,
          List.nil_append, hnl]
      · rw [if_neg hnl]
        cases hsp : splitNL cs with
        | nil => exact absurd hsp (splitNL_ne_nil cs)
        | cons t ts =>
            cases ts with
            | nil =>
                rw [hsp] at ih
                have ht : t = cs := ih
                simp [joinNL, ht]
            | cons u us =>
                rw [joinNL_cons_of_ne (by simp)]
                rw [hsp, joinNL_cons_of_ne (by simp)] at ih
                rw [List.cons_append, ih]

theorem splitNL_single {t : List Char} (h : '\n' ∉ t) : splitNL t = [t] := by
  induction t with
  | nil => rfl
  | cons c t ih =>
      have hc : ¬(c = '\n') := fun hc => h (hc ▸ List.mem_cons_self c t)
      rw [splitNL, if_neg hc, ih (fun hm => h (List.mem_cons_of_mem c hm))]

theorem splitNL_append_nl {t X : List Char} (h : '\n' ∉ t) :
    splitNL (t ++ '\n' :: X) = t :: splitNL X := by
  induction t with
  | nil => rw [List.nil_append, splitNL, if_pos rfl]
  | cons c t ih =>
      have hc : ¬(c = '\n') := fun hc => h (hc ▸ List.mem_cons_self c t)
      rw [List.cons_append, splitNL, if_neg hc,
        ih (fun hm => h (List.mem_cons_of_mem c hm))]

theorem splitNL_joinNL : ∀ (ls : List (List Char)), ls ≠ [] →
    (∀ t ∈ ls, '\n' ∉ t) → splitNL (joinNL ls) = ls := by
  intro ls
  induction ls with
  | nil => intro h _; exact absurd rfl h
  | cons t ts ih =>
      intro _ hfree
      cases ts with
      | nil => exact splitNL_single (hfree t (List.mem_cons_self t []))
      | cons u us =>
          rw [joinNL_cons_of_ne (by simp),
            splitNL_append_nl (hfree t (List.mem_cons_self t (u :: us))),
            ih (by simp) (fun x hx => hfree x (List.mem_cons_of_mem t hx))]

/-! ## The bidi repair heuristic (modelled from the spec) -/

theorem repair_rtl_lines (l : List Char) :
    splitNL (repair_rtl l) = (splitNL l).map fun ln =>
      if (containsRTL l && isReversedVisual l) && ln.any isHebrew then
        bidiReorderLine ln
      else ln := by
  by_cases hc : (containsRTL l && isReversedVisual l) = true
  · rw [repair_rtl, if_pos hc]
    rw [splitNL_joinNL]
    · apply List.map_congr_left
      intro ln _
      rw [hc]
      simp
    · intro hmap
      exact splitNL_ne_nil l (List.map_eq_nil_iff.mp hmap)
    · intro t ht
      rw [List.mem_map] at ht
      obtain ⟨ln, hln, hfl⟩ := ht
      have hfree := splitNL_no_nl l ln hln
      subst hfl
      split
      · rw [bidiReorderLine]
        simpa using hfree
      · exact hfree
  · rw [repair_rtl, if_neg hc]
    rw [Bool.not_eq_true] at hc
    rw [hc]
    simp

theorem repair_rtl_no_ascii_token (l : List Char)
    (h : ∀ t ∈ (wsTokens l).take 20, isAsciiAlphaTok t = false) :
    repair_rtl l = l := by
  have hrev : isReversedVisual l = false := by
    rw [isReversedVisual]
    have : ((wsTokens l).take 20).any isAsciiAlphaTok = false :=
      List.any_eq_false.mpr (fun t ht hc => by rw [h t ht] at hc; cases hc)
    rw [this, Bool.and_false]
  rw [repair_rtl, if_neg]
  rw [hrev, Bool.and_false]
  simp

/-! ## Detection rules of the bidi repair heuristic -/

theorem containsRTL_iff (l : List Char) :
    containsRTL l = true ↔
      ∃ i, ∃ hi : i < l.length, i < 200 ∧ isHebrew l[i] = true := by
  rw [containsRTL, List.any_eq_true]
  constructor
  · rintro ⟨c, hc, hheb⟩
    rw [List.mem_take_iff_getElem] at hc
    obtain ⟨i, hm, rfl⟩ := hc
    rw [lt_min_iff] at hm
    exact ⟨i, hm.2, hm.1, hheb⟩
  · rintro ⟨i, hi, h200, hheb⟩
    refine ⟨l[i], List.mem_take_iff_getElem.mpr ⟨i, ?_, rfl⟩, hheb⟩
    rw [lt_min_iff]
    exact ⟨h200, hi⟩

theorem isReversedVisual_iff (l : List Char) :
    isReversedVisual l = true ↔
      (∃ t ∈ (wsTokens l).take 20, t.any isHebrew = true) ∧
      (∃ t ∈ (wsTokens l).take 20, isAsciiAlphaTok t = true) := by
  rw [isReversedVisual, Bool.and_eq_true, List.any_eq_true, List.any_eq_true]

/-! ## The claims -/

/-- C1, counterexample: `normalize` is not idempotent.  On the input of
three CJK characters separated by single spaces, the de-spacing
substitution consumes the middle character as the right flank of its first
match, so the second space survives one application and is removed by the
next — the spec claims the two sides are equal for every input. -/
theorem c1_idempotence_counterexample :
    normalizeText (normalizeText "你 好 你") ≠ normalizeText "你 好 你" := by
  decide

/-- C1, amended: the whitespace-normalization core of `normalize` — passes
(3) horizontal-whitespace collapsing, (4) trimming around newlines and
(5) newline-run collapsing — is idempotent as a composition; the full
normalizer is not, because the CJK de-spacing pass scans left to right
without overlap. -/
theorem c1_whitespace_core_idempotent (l : List Char) :
    wsPasses (wsPasses l) = wsPasses l := wsPasses_idem l

/-- C2: the compactor does not keep script interiors or tag interiors
byte-identical, contradicting its own docstring and the spec: the cleanup
substitutions of `compact_html` run over the whole string, protected
blocks included, so the space before the less-than sign inside the script
block and the double space inside the tag are collapsed. -/
theorem c2_script_interior_modified :
    compact_html "<script>var a = 1 < 2;</script>" =
      "<script>var a = 1< 2;</script>" ∧
    compact_html "<a b=\"x  y\">" = "<a b=\"x y\">" := by
  constructor <;> decide

/-- C3, counterexample: `normalize` does not remove every whitespace
occurrence sitting between two CJK characters — on three CJK characters
separated by spaces the second separator survives, because the middle
character was consumed by the first match of the non-overlapping scan. -/
theorem c3_despace_counterexample :
    normalizeText "好 你 好" = "好你 好" ∧
    hasWSBetweenCJK (normalizeText "好 你 好").toList = true := by
  constructor <;> decide

/-- C3, amended: the CJK de-spacing removes a whitespace character between
two CJK characters whenever the left character can anchor a match (in
particular for a single isolated occurrence), and the two spec examples
hold: the space of two space-separated CJK characters is removed and the
space between a CJK and a Latin word is preserved; but a CJK character
consumed as the right flank of one match cannot anchor the next, so
occurrences overlapping a previous match survive. -/
theorem c3_despace_amended :
    (∀ c w d : Char, isCJK c = true → isPySpace w = true → isCJK d = true →
      cjkDespace [c, w, d] = [c, d]) ∧
    normalizeText "你 好" = "你好" ∧ normalizeText "你 good" = "你 good" := by
  refine ⟨fun c w d hc hw hd => ?_, by decide, by decide⟩
  exact @cjkDespace_run [w] c d hc hd (by simp) (by simp [hw])

/-- C3, witness for the amended statement at concrete characters. -/
theorem c3_despace_amended_witness :
    cjkDespace ['你', ' ', '好'] = ['你', '好'] :=
  c3_despace_amended.1 '你' ' ' '好' (by decide) (by decide) (by decide)

/-- C4, counterexample: the dolma variant of `clean_control_chars` does
not trim surrounding whitespace — it returns the input of a letter with
surrounding spaces unchanged, while the claim says every sanitize variant
trims. -/
theorem c4_dolma_trim_counterexample :
    clean_control_chars_dolma " a ".toList = " a ".toList ∧
    noEdgeWS (clean_control_chars_dolma " a ".toList) = false := by
  constructor <;> decide

/-- C4, amended: every `clean_control_chars` variant strips leading
byte-order marks and deletes the 0x00-0x1F code points except tab, LF and
CR — so no such code point survives — and the BOM-plus-bell example
sanitizes to the claimed value in both variants; the final whitespace trim
is performed by the csv/json variant only, the dolma variant omits it. -/
theorem c4_sanitize_amended :
    (∀ l : List Char, noBadControlChars (clean_control_chars l) = true) ∧
    (∀ l : List Char, noBadControlChars (clean_control_chars_dolma l) = true) ∧
    (∀ l : List Char, noEdgeWS (clean_control_chars l) = true) ∧
    clean_control_chars "\uFEFFHello\x07World".toList = "HelloWorld".toList ∧
    clean_control_chars_dolma "\uFEFFHello\x07World".toList =
      "HelloWorld".toList := by
  refine ⟨clean_control_chars_noBad, fun l => cleanControlCore_noBad l,
    clean_control_chars_noEdge, by decide, by decide⟩

/-- C5: the `</div>` to `</div><br>` substitution inserts an explicit line
break after every division-closing tag, and on the spec's end-to-end
scenario the (spec-modelled) flattening pipeline yields the title with its
surrounding spaces trimmed and a body in which the two division contents
are separated by a paragraph break. -/
theorem c5_div_break_scenario :
    insertBrAfterDiv "<div>A</div><div>B</div>".toList =
      "<div>A</div><br><div>B</div><br>".toList ∧
    extractContentModel
      "<html><title>  Hi </title><body><div>A</div><div>B</div></body></html>".toList =
      ("Hi".toList, "A\n\nB\n\n".toList) ∧
    "A\n\nB".toList <:+: "A\n\nB\n\n".toList := by
  refine ⟨by decide, by decide, [], ['\n', '\n'], by decide⟩

/-- C6, counterexample: on an input with an unterminated tag the
compactor's output tail is not byte-identical to the input suffix — the
later cleanup substitutions still collapse the double space inside the
unterminated tag. -/
theorem c6_tail_counterexample :
    compact_html "abc<def  gh" = "abc<def gh" ∧
    compact_html "abc<def  gh" ≠ "abc" ++ "<def  gh" := by
  constructor <;> decide

/-- C6, amended: the character-scan phase of `compact_html` does copy the
remainder verbatim — from an opening bracket with no later closing
bracket, and from an unclosed script block with no later closing script
tag, the scan emits the rest of the input unchanged — but the cleanup
substitutions that follow the scan may still collapse whitespace in that
tail, so the full compactor is not byte-lossless there. -/
theorem c6_scan_copy_through :
    (∀ (l : List Char) (protect : Bool), '>' ∉ l →
      compactScan true protect l = l) ∧
    (∀ (l : List Char) (inTag : Bool), hasCloseScriptTag l = false →
      compactScan inTag true l = l) :=
  ⟨compactScan_inTag, compactScan_protect⟩

/-- C6, witness at concrete unterminated inputs. -/
theorem c6_scan_copy_through_witness :
    compactScan true false "a href  x".toList = "a href  x".toList ∧
    compactScan false true "inside  script".toList =
      "inside  script".toList :=
  ⟨c6_scan_copy_through.1 "a href  x".toList false (by decide),
   c6_scan_copy_through.2 "inside  script".toList false (by decide)⟩

/-- C7, counterexample: a tab adjacent to a newline survives `normalize`
(the trimming pass removes only spaces around newlines), so an output line
can end in whitespace, against the claim that no line has leading or
trailing whitespace. -/
theorem c7_line_edge_counterexample :
    normalizeText "a\t\nb" = "a\t\nb" ∧
    hasEdgeWSLine (normalizeText "a\t\nb").toList = true := by
  constructor <;> decide

/-- C7, amended: for every input, the output of `normalize` has no run of
two or more space/tab characters, no space character directly before or
after a newline (tabs adjacent to newlines may survive, and so may
whitespace at the very start or end of the string), and no run of three
or more newlines. -/
theorem c7_normalize_output_invariants (s : String) :
    adjOK hwsR (normalizeText s).toList = true ∧
    adjOK spNlR (normalizeText s).toList = true ∧
    noTripleNL (normalizeText s).toList = true :=
  ⟨normalizePost_adjOK_hws _, normalizePost_adjOK_spNl _,
   normalizePost_noTriple _⟩

/-- C8: the (spec-modelled) bidi repair heuristic judges a text to contain
right-to-left script exactly when one of its first 200 code points lies in
the Hebrew block; judges it visually reversed exactly when its first 20
whitespace-separated tokens contain both a Hebrew-bearing token and a
purely ASCII-alphabetic token; repairs line by line, reordering exactly
the lines containing Hebrew characters and passing the others through,
never merging or reordering lines; and leaves a text with no
ASCII-alphabetic token among its first 20 tokens (such as a pure-Hebrew
logical-order line) unchanged. -/
theorem c8_repair_rtl_spec :
    (∀ l : List Char, containsRTL l = true ↔
      ∃ i, ∃ hi : i < l.length, i < 200 ∧ isHebrew l[i] = true) ∧
    (∀ l : List Char, isReversedVisual l = true ↔
      (∃ t ∈ (wsTokens l).take 20, t.any isHebrew = true) ∧
      (∃ t ∈ (wsTokens l).take 20, isAsciiAlphaTok t = true)) ∧
    (∀ l : List Char, splitNL (repair_rtl l) = (splitNL l).map fun ln =>
      if (containsRTL l && isReversedVisual l) && ln.any isHebrew then
        bidiReorderLine ln
      else ln) ∧
    (∀ l : List Char, (∀ t ∈ (wsTokens l).take 20, isAsciiAlphaTok t = false) →
      repair_rtl l = l) :=
  ⟨containsRTL_iff, isReversedVisual_iff, repair_rtl_lines,
   repair_rtl_no_ascii_token⟩

/-- C8, witness: a pure-Hebrew logical-order text has no ASCII-alphabetic
token, so the heuristic declines to repair it. -/
theorem c8_repair_rtl_spec_witness :
    repair_rtl "שלום עולם".toList = "שלום עולם".toList :=
  c8_repair_rtl_spec.2.2.2 "שלום עולם".toList (by decide)

/-- C9: the (spec-modelled) flattener is total — it returns a title/body
pair on every input and never fails — and on malformed markup it returns
best-effort text: an unterminated tag ends the scan with the text
gathered so far, and cross-nested inline tags are simply skipped. -/
theorem c9_flatten_total :
    (∀ l : List Char, ∃ t b, extractContentModel l = (t, b)) ∧
    extractContentModel "<title>T</title><p>Hello <b wor".toList =
      ("T".toList, "Hello ".toList) ∧
    extractContentModel "<b><i>ab</b>cd</i>".toList = ([], "abcd".toList) := by
  refine ⟨fun l => ⟨_, _, rfl⟩, by decide, by decide⟩

/-- C10, counterexample: a newline sitting directly between two CJK
characters survives `normalize` when the left CJK character was consumed
by a previous de-spacing match, against the claim that every such newline
run is deleted. -/
theorem c10_newline_counterexample :
    normalizeText "你 你\n好" = "你你\n好" ∧
    hasNLBetweenCJK (normalizeText "你 你\n好").toList = true := by
  constructor <;> decide

/-- C10, amended: the CJK de-spacing pattern matches every whitespace
character, newlines included, so a newline run — a paragraph break — that
sits between two CJK characters is deleted and the lines joined whenever
the left character anchors a match; in particular a blank line between two
CJK characters does not survive `normalize`. -/
theorem c10_cjk_newline_amended :
    (∀ (c d : Char) (run : List Char), isCJK c = true → isCJK d = true →
      run ≠ [] → run.all isPySpace = true →
      cjkDespace (c :: (run ++ [d])) = [c, d]) ∧
    normalizeText "你\n\n好" = "你好" := by
  exact ⟨fun c d run hc hd hr ha => cjkDespace_run hc hd hr ha, by decide⟩

/-- C10, witness: a paragraph break between two concrete CJK characters is
removed. -/
theorem c10_cjk_newline_amended_witness :
    cjkDespace ('你' :: (['\n', '\n'] ++ ['好'])) = ['你', '好'] :=
  c10_cjk_newline_amended.1 '你' '好' ['\n', '\n'] (by decide) (by decide)
    (by decide) (by decide)
